import Mathlib

/-!
# Verification of the FSD-aware filesystem classifier and import resolver

Shallow embedding of `src/fsd-aware-traverse.ts` (both the earlier and the
later version contained in the source file) and of the import resolver whose
behaviour is fixed by the specification and the test in the repository.

Paths are slash-separated strings, exactly as in the source; the `node:path`
functions used by the source (`basename`, `parse`, `join`) are modelled for
the posix flavour on the underlying character lists.
-/

/-- Characters of a path or name. -/
abbrev Chars := List Char

/-- Split a character list on a single separator character.
Mirrors `String.prototype.split` with a one-character separator:
`chSplit '/' "a/b" = ["a", "b"]`, `chSplit '/' "" = [""]`. -/
def chSplit (sep : Char) : Chars → List Chars
  | [] => [[]]
  | c :: cs =>
    if c = sep then [] :: chSplit sep cs
    else
      match chSplit sep cs with
      | [] => [[c]]
      | h :: t => (c :: h) :: t

/-- Rejoin components with a separator character; left inverse of `chSplit`. -/
def interC (sep : Char) : List Chars → Chars
  | [] => []
  | [x] => x
  | x :: rest => x ++ sep :: interC sep rest

/-- Index of the last `.` in a name, as in `String.prototype.lastIndexOf(".")`. -/
def lastDotIdx : Chars → Option Nat
  | [] => none
  | c :: cs =>
    match lastDotIdx cs with
    | some i => some (i + 1)
    | none => if c = '.' then some 0 else none

/-- Components of a path string (raw split on `/`). -/
def pathComps (p : String) : List Chars := chSplit '/' p.data

/-- Drop trailing empty components, as `node:path` ignores trailing slashes. -/
def stripTrailEmpties (l : List Chars) : List Chars :=
  (l.reverse.dropWhile (fun c => c = [])).reverse

/-- Characters of `basename(p)` (posix). -/
def baseL (p : String) : Chars :=
  match (stripTrailEmpties (pathComps p)).getLast? with
  | some b => b
  | none => if p = "" then [] else ['/']

/-- `basename` from `node:path` (posix), as used throughout the source. -/
def basename (p : String) : String := ⟨baseL p⟩

/-- `parse(b).name` of a basename `b`: cut the final extension, keeping
dotfiles (a lone leading dot) and `".."` intact, as `node:path.parse` does. -/
def parseNameL (b : Chars) : Chars :=
  if b = ['.', '.'] then b
  else
    match lastDotIdx b with
    | none => b
    | some 0 => b
    | some i => b.take i

/-- `parse(p).name`: the extension-stripped basename of a path. -/
def parseName (p : String) : String := ⟨parseNameL (baseL p)⟩

/-- `parse(p).dir`: everything before the basename. -/
def parseDir (p : String) : String :=
  ⟨interC '/' (stripTrailEmpties (pathComps p)).dropLast⟩

/-- One step of posix path normalization over components:
empty and `.` components vanish, `..` pops a previous component
(the accumulator is kept reversed). -/
def normStep (isAbs : Bool) (acc : List Chars) (comp : Chars) : List Chars :=
  if comp = [] ∨ comp = ['.'] then acc
  else if comp = ['.', '.'] then
    match acc with
    | [] => if isAbs then [] else [comp]
    | t :: rest => if t = ['.', '.'] then comp :: acc else rest
  else comp :: acc

/-- `path.normalize` (posix) on character lists, without trailing-slash
preservation (never needed by the source's call sites). -/
def normalizeL (l : Chars) : Chars :=
  let isAbs := l.head? = some '/'
  let comps := ((chSplit '/' l).foldl (normStep isAbs) []).reverse
  let core := interC '/' comps
  if isAbs then '/' :: core
  else if core = [] then ['.']
  else core

/-- `path.join` (posix): skip empty arguments, concatenate with `/`,
then normalize. -/
def pjoin (parts : List String) : String :=
  ⟨normalizeL (interC '/' ((parts.map String.data).filter (fun c => c ≠ [])))⟩

example : basename "src/entities/user" = "user" := by decide
example : basename "a/b/" = "b" := by decide
example : parseName "src/ui/index.client.ts" = "index.client" := by decide
example : parseName "src/.env" = ".env" := by decide
example : parseDir "src/entities/user/@x/product.ts" = "src/entities/user/@x" := by decide
example : pjoin ["", "home"] = "home" := by decide
example : pjoin ["./src/entities", "user", "@x"] = "src/entities/user/@x" := by decide
example : pjoin ["pages", "home"] = "pages/home" := by decide

/-- A node of the in-memory filesystem tree: tagged union of
`File {path}` and `Folder {path, children}` from `definitions.js`. -/
inductive FSNode where
  | file (path : String)
  | folder (path : String) (children : List FSNode)

mutual
/-- Boolean equality of nodes. -/
def FSNode.beq : FSNode → FSNode → Bool
  | .file p, .file q => p == q
  | .folder p cs, .folder q ds => p == q && FSNode.beqChildren cs ds
  | _, _ => false

/-- Boolean equality of child lists. -/
def FSNode.beqChildren : List FSNode → List FSNode → Bool
  | [], [] => true
  | a :: as, b :: bs => FSNode.beq a b && FSNode.beqChildren as bs
  | _, _ => false
end

mutual
theorem FSNode.beq_iff_eq : ∀ a b : FSNode, FSNode.beq a b = true ↔ a = b
  | .file p, .file q => by simp [FSNode.beq]
  | .file _, .folder _ _ => by simp [FSNode.beq]
  | .folder _ _, .file _ => by simp [FSNode.beq]
  | .folder p cs, .folder q ds => by
    simp [FSNode.beq, FSNode.beqChildren_iff_eq cs ds]

theorem FSNode.beqChildren_iff_eq :
    ∀ as bs : List FSNode, FSNode.beqChildren as bs = true ↔ as = bs
  | [], [] => by simp [FSNode.beqChildren]
  | [], _ :: _ => by simp [FSNode.beqChildren]
  | _ :: _, [] => by simp [FSNode.beqChildren]
  | a :: as, b :: bs => by
    simp [FSNode.beqChildren, FSNode.beq_iff_eq a b, FSNode.beqChildren_iff_eq as bs]
end

instance : DecidableEq FSNode := fun a b => decidable_of_iff _ (FSNode.beq_iff_eq a b)

/-- The `path` field shared by files and folders. -/
def FSNode.path : FSNode → String
  | .file p => p
  | .folder p _ => p

/-- The `children` field; a file has none. -/
def FSNode.children : FSNode → List FSNode
  | .file _ => []
  | .folder _ cs => cs

/-- `child.type === "folder"`. -/
def FSNode.isFolder : FSNode → Bool
  | .file _ => false
  | .folder _ _ => true

/-- `child.type === "file"`. -/
def FSNode.isFile : FSNode → Bool
  | .file _ => true
  | .folder _ _ => false

/-- The six fixed layer names (called `layerNames` in the earlier version and
`layerSequence` in the later one, with the same six members). -/
def layerSequence : List String := ["shared", "entities", "features", "widgets", "pages", "app"]

/-- The two unsliced layers. -/
def unslicedLayers : List String := ["shared", "app"]

/-- The conventional segment names. -/
def conventionalSegmentNames : List String := ["ui", "api", "lib", "model", "config"]

/-- `getLayers` (later version): direct folder children of the root whose
basename is a recognized layer name, keyed by that basename. -/
def getLayers (fsdRoot : FSNode) : List (String × FSNode) :=
  (fsdRoot.children.filter (fun child =>
      child.isFolder && layerSequence.contains (basename child.path))).map
    (fun child => (basename child.path, child))

/-- `isIndex`: a file whose parsed name's token before the first `.`
is `index`; a folder is never an index. -/
def isIndex : FSNode → Bool
  | .file p => (chSplit '.' (parseNameL (baseL p))).headD [] == "index".data
  | .folder _ _ => false

/-- `isSlice` (later version): some direct child's `parse(path).name` is a
conventional (or additionally provided) segment name. -/
def isSlice (folder : FSNode) (additionalSegmentNames : List String := []) : Bool :=
  folder.children.any (fun child =>
    (conventionalSegmentNames ++ additionalSegmentNames).contains (parseName child.path))

mutual
/-- The inner `traverse` of `getSlices`: record a slice folder under
`join(pathPrefix, basename(folder.path))`, otherwise recurse into folder
children with that joined prefix. Entries are accumulated in traversal
order (JS object insertion order). -/
def traverseNode (additionalSegmentNames : List String) (pfx : String) :
    FSNode → List (String × FSNode)
  | .file _ => []
  | .folder p cs =>
    if isSlice (.folder p cs) additionalSegmentNames then
      [(pjoin [pfx, basename p], .folder p cs)]
    else
      traverseChildren additionalSegmentNames (pjoin [pfx, basename p]) cs

/-- `folder.children.forEach(child => { if folder then traverse(child, …) })`;
a file child contributes nothing. -/
def traverseChildren (additionalSegmentNames : List String) (pfx : String) :
    List FSNode → List (String × FSNode)
  | [] => []
  | c :: rest =>
    traverseNode additionalSegmentNames pfx c ++
      traverseChildren additionalSegmentNames pfx rest
end

/-- `getSlices` (later version): traverse every direct folder child of the
layer with the empty path prefix. -/
def getSlices (slicedLayer : FSNode) (additionalSegmentNames : List String := []) :
    List (String × FSNode) :=
  traverseChildren additionalSegmentNames "" slicedLayer.children

/-- `getSegments` (later version): direct children that are not index files,
keyed by `parse(path).name`. -/
def getSegments (sliceOrUnslicedLayer : FSNode) : List (String × FSNode) :=
  (sliceOrUnslicedLayer.children.filter (fun child => !isIndex child)).map
    (fun child => (parseName child.path, child))

/-- `isSliced`, applied to a layer name or a folder's path. -/
def isSliced (layerOrName : String) : Bool :=
  !(unslicedLayers.contains (basename layerOrName))

/-- `getAllSlices` (later version): fold over the sliced layers, spreading in
each layer's slices tagged with the owning layer's basename; the entry list
keeps JS spread semantics (later entries win on lookup). -/
def getAllSlices (fsdRoot : FSNode) (additionalSegmentNames : List String := []) :
    List (String × (FSNode × String)) :=
  (((getLayers fsdRoot).map Prod.snd).filter (fun layer => isSliced layer.path)).foldl
    (fun slices layer =>
      slices ++ (getSlices layer additionalSegmentNames).map
        (fun kf => (kf.1, (kf.2, basename layer.path))))
    []

/-- One element of `getAllSegments`'s result. -/
structure SegmentInfo where
  segment : FSNode
  segmentName : String
  sliceName : Option String
  layerName : String
deriving DecidableEq

/-- `getAllSegments`: every layer's segments, through slices when the layer is
sliced (with `getSlices` called without additional segment names). -/
def getAllSegments (fsdRoot : FSNode) : List SegmentInfo :=
  (getLayers fsdRoot).flatMap (fun layerEntry =>
    if isSliced layerEntry.2.path then
      (getSlices layerEntry.2).flatMap (fun sliceEntry =>
        (getSegments sliceEntry.2).map (fun segEntry =>
          ⟨segEntry.2, segEntry.1, some sliceEntry.1, layerEntry.1⟩))
    else
      (getSegments layerEntry.2).map (fun segEntry =>
        ⟨segEntry.2, segEntry.1, none, layerEntry.1⟩))

/-- `getIndexes`: a file is its own one-element sequence; a folder yields its
direct children that are index files, in child order. -/
def getIndexes : FSNode → List FSNode
  | .file p => [.file p]
  | .folder _ cs => cs.filter isIndex

/-- The destructured second argument of `isCrossImportPublicApi`. -/
structure CrossImportContext where
  inSlice : String
  forSlice : String
  layerPath : String
deriving DecidableEq

/-- `isCrossImportPublicApi`: the parsed name equals `forSlice` and the parsed
directory equals `join(layerPath, inSlice, "@x")`. -/
def isCrossImportPublicApi (file : FSNode) (ctx : CrossImportContext) : Bool :=
  parseName file.path == ctx.forSlice &&
    parseDir file.path == pjoin [ctx.layerPath, ctx.inSlice, "@x"]

/-- Lookup in a JS-object entry list: the value of the latest entry with the
given key (later assignments overwrite earlier ones). -/
def rget {α : Type} (entries : List (String × α)) (k : String) : Option α :=
  entries.reverse.lookup k

namespace V1

/-- `withoutExtension` of the earlier version: cut at the last `.`
(`lastIndexOf`), keeping everything when there is no dot. -/
def withoutExtensionL (filename : Chars) : Chars :=
  match lastDotIdx filename with
  | none => filename
  | some i => filename.take i

/-- `withoutExtension` on strings. -/
def withoutExtension (filename : String) : String := ⟨withoutExtensionL filename.data⟩

/-- `isSlice` of the earlier version: some direct child's
`withoutExtension(basename(path))` is a conventional (or additionally
provided) segment name. -/
def isSlice (folder : FSNode) (additionalSegmentNames : List String := []) : Bool :=
  folder.children.any (fun child =>
    (conventionalSegmentNames ++ additionalSegmentNames).contains
      (withoutExtension (basename child.path)))

mutual
/-- The inner `traverse` of the earlier `getSlices`; identical to the later
one except for the `isSlice` it consults. -/
def traverseNode (additionalSegmentNames : List String) (pfx : String) :
    FSNode → List (String × FSNode)
  | .file _ => []
  | .folder p cs =>
    if V1.isSlice (.folder p cs) additionalSegmentNames then
      [(pjoin [pfx, basename p], .folder p cs)]
    else
      V1.traverseChildren additionalSegmentNames (pjoin [pfx, basename p]) cs

/-- Folder children are traversed in order; files contribute nothing. -/
def traverseChildren (additionalSegmentNames : List String) (pfx : String) :
    List FSNode → List (String × FSNode)
  | [] => []
  | c :: rest =>
    V1.traverseNode additionalSegmentNames pfx c ++
      V1.traverseChildren additionalSegmentNames pfx rest
end

/-- `getSlices` of the earlier version. -/
def getSlices (slicedLayer : FSNode) (additionalSegmentNames : List String := []) :
    List (String × FSNode) :=
  V1.traverseChildren additionalSegmentNames "" slicedLayer.children

end V1

/-- The compiler-options subset the resolver consumes:
`baseUrl` plus the ordered `paths` mapping. -/
structure CompilerOptions where
  baseUrl : String
  paths : List (String × List String)

/-- The recognized source extensions of the resolver's fallback probing, in
the fixed priority order used by the repository's test setup. -/
def sourceExtensions : List String := [".ts", ".tsx", ".js", ".jsx"]

/-- Split a pattern at its single `*` wildcard, when it has one. -/
def splitStar (l : Chars) : Option (Chars × Chars) :=
  if l.contains '*' then
    some (l.takeWhile (fun c => c ≠ '*'), (l.dropWhile (fun c => c ≠ '*')).tail)
  else none

/-- Match a `paths` key against a specifier: `none` when the key does not
match, `some none` on an exact wildcard-free match, `some (some mid)` when a
single-wildcard key captures `mid`. -/
def wildMatch (key specifier : Chars) : Option (Option Chars) :=
  match splitStar key with
  | none => if key = specifier then some none else none
  | some (pre, post) =>
    if pre.isPrefixOf specifier && post.isSuffixOf specifier &&
        pre.length + post.length ≤ specifier.length then
      some (some ((specifier.drop pre.length).take
        (specifier.length - pre.length - post.length)))
    else none

/-- Substitute a captured segment for the template's wildcard, if any. -/
def substStar (template : Chars) (captured : Option Chars) : Chars :=
  match splitStar template, captured with
  | some (pre, post), some mid => pre ++ mid ++ post
  | _, _ => template

/-- The fixed fallback sequence probed for one base candidate: the literal
path, the path with each recognized extension, then the path as a directory
with `/index` plus each extension. -/
def probeCandidates (base : Chars) : List Chars :=
  base :: (sourceExtensions.map (fun e => base ++ e.data) ++
    sourceExtensions.map (fun e => base ++ "/index".data ++ e.data))

/-- Modelled from the spec: `resolveImport` itself is not under `src/` (only
its test is), so the resolver follows §4.2 of the specification: a relative
specifier resolves against the importer's directory and bypasses `paths`;
otherwise the first matching `paths` key (declaration order) yields its
replacement templates as base candidates, and with no matching key the
specifier is rooted at `baseUrl`; each base candidate is probed with the
literal/extension/`index` fallback sequence, candidates being normalized
before the injected existence probe is consulted; the first hit is returned
and exhaustion yields `undefined`. -/
def resolveImport (specifier importerPath : String) (opts : CompilerOptions)
    (fileExists : String → Bool) : Option String :=
  let baseCandidates : List Chars :=
    if "./".data.isPrefixOf specifier.data || "../".data.isPrefixOf specifier.data then
      [(parseDir importerPath).data ++ '/' :: specifier.data]
    else
      match opts.paths.findSome? (fun kt =>
          (wildMatch kt.1.data specifier.data).map (fun cap =>
            kt.2.map (fun t => substStar t.data cap))) with
      | some bases => bases
      | none => [opts.baseUrl.data ++ '/' :: specifier.data]
  baseCandidates.findSome? (fun base =>
    (probeCandidates base).findSome? (fun cand =>
      let normalized : String := ⟨normalizeL cand⟩
      if fileExists normalized then some normalized else none))

/-! ## Helper lemmas about the path model -/

theorem chSplit_ne_nil (sep : Char) (l : Chars) : chSplit sep l ≠ [] := by
  induction l with
  | nil => simp [chSplit]
  | cons c cs ih =>
    simp only [chSplit]
    split
    · simp
    · cases h : chSplit sep cs <;> simp


theorem chSplit_cons_form (sep : Char) (l : Chars) :
    ∃ h t, chSplit sep l = h :: t := by
  cases h : chSplit sep l with
  | nil => exact absurd h (chSplit_ne_nil sep l)
  | cons a b => exact ⟨a, b, rfl⟩

theorem chSplit_append (sep : Char) (xs ys : Chars) :
    chSplit sep (xs ++ sep :: ys) = chSplit sep xs ++ chSplit sep ys := by
  induction xs with
  | nil => simp [chSplit]
  | cons c cs ih =>
    obtain ⟨h0, t0, hA⟩ := chSplit_cons_form sep cs
    by_cases hc : c = sep
    · subst hc
      simp [chSplit, ih]
    · simp [chSplit, hc, ih, hA]

theorem chSplit_no_sep (sep : Char) (l : Chars) (h : ¬ sep ∈ l) :
    chSplit sep l = [l] := by
  induction l with
  | nil => rfl
  | cons c cs ih =>
    rw [List.mem_cons, not_or] at h
    have hc : ¬ c = sep := fun h' => h.1 h'.symm
    simp [chSplit, hc, ih h.2]

theorem chSplit_headD (sep : Char) (l : Chars) :
    (chSplit sep l).headD [] = l.takeWhile (fun c => c ≠ sep) := by
  induction l with
  | nil => rfl
  | cons c cs ih =>
    obtain ⟨h0, t0, hA⟩ := chSplit_cons_form sep cs
    rw [hA] at ih
    by_cases hc : c = sep
    · subst hc
      simp [chSplit, List.takeWhile]
    · simp only [List.headD] at ih
      simp only [ne_eq, decide_not] at ih
      simp [chSplit, hc, hA, List.takeWhile, ← ih]

theorem interC_chSplit (sep : Char) (l : Chars) : interC sep (chSplit sep l) = l := by
  induction l with
  | nil => rfl
  | cons c cs ih =>
    obtain ⟨h0, t0, hA⟩ := chSplit_cons_form sep cs
    rw [hA] at ih
    by_cases hc : c = sep
    · subst hc
      simp only [chSplit, if_pos rfl, hA]
      cases t0 with
      | nil => simp only [interC] at ih ⊢; simp [ih]
      | cons a b => simp only [interC] at ih ⊢; simp [ih]
    · simp only [chSplit, if_neg hc, hA]
      cases t0 with
      | nil => simp only [interC] at ih ⊢; simp [ih]
      | cons a b =>
        simp only [interC] at ih ⊢
        rw [List.cons_append, ih]

theorem takeWhile_append_cons {p : Char → Bool} {a : Char} (h : p a = false)
    (xs ys : Chars) : (xs ++ a :: ys).takeWhile p = xs.takeWhile p := by
  induction xs with
  | nil => simp [List.takeWhile, h]
  | cons c cs ih =>
    simp only [List.cons_append, List.takeWhile]
    cases hc : p c <;> simp [ih]

theorem lastDotIdx_decomp (l : Chars) (i : Nat) (h : lastDotIdx l = some i) :
    l = l.take i ++ '.' :: l.drop (i + 1) := by
  induction l generalizing i with
  | nil => simp [lastDotIdx] at h
  | cons c cs ih =>
    simp only [lastDotIdx] at h
    cases hcs : lastDotIdx cs with
    | some j =>
      rw [hcs] at h
      have hi : i = j + 1 := (Option.some.inj h).symm
      subst hi
      have hcs' := ih j hcs
      calc c :: cs = c :: (cs.take j ++ '.' :: cs.drop (j + 1)) := by rw [← hcs']
        _ = (c :: cs).take (j + 1) ++ '.' :: (c :: cs).drop (j + 1 + 1) := by
            simp [List.take_succ_cons, List.drop_succ_cons]
    | none =>
      rw [hcs] at h
      by_cases hc : c = '.'
      · rw [if_pos hc] at h
        have hi : i = 0 := (Option.some.inj h).symm
        subst hi
        simp [hc]
      · rw [if_neg hc] at h
        cases h

theorem lastDotIdx_zero_head (l : Chars) (h : lastDotIdx l = some 0) :
    l.head? = some '.' := by
  cases l with
  | nil => simp [lastDotIdx] at h
  | cons c cs =>
    simp only [lastDotIdx] at h
    cases hcs : lastDotIdx cs with
    | some j => rw [hcs] at h; cases h
    | none =>
      rw [hcs] at h
      by_cases hc : c = '.'
      · simp [hc]
      · rw [if_neg hc] at h
        cases h

/-- The token before the first dot survives cutting the final extension. -/
theorem takeWhile_parseNameL (b : Chars) :
    (parseNameL b).takeWhile (fun c => c ≠ '.') = b.takeWhile (fun c => c ≠ '.') := by
  by_cases hb : b = ['.', '.']
  · simp only [parseNameL, if_pos hb]
  · cases h : lastDotIdx b with
    | none => simp only [parseNameL, if_neg hb, h]
    | some i =>
      cases i with
      | zero => simp only [parseNameL, if_neg hb, h]
      | succ j =>
        simp only [parseNameL, if_neg hb, h]
        conv_rhs => rw [lastDotIdx_decomp b (j + 1) h]
        rw [takeWhile_append_cons (by decide)]

/-! ## Clean path components and normalization-free joins -/

/-- A clean path component: nonempty, not `.` or `..`, and slash-free. -/
def cleanComp (c : Chars) : Bool :=
  !(c == []) && !(c == ['.']) && !(c == ['.', '.']) && !(decide ('/' ∈ c))

/-- A normalized relative path: every slash-separated component is clean. -/
def normalRelPath (p : String) : Bool := (pathComps p).all cleanComp

theorem cleanComp_spec (c : Chars) (h : cleanComp c = true) :
    c ≠ [] ∧ c ≠ ['.'] ∧ c ≠ ['.', '.'] ∧ ¬ '/' ∈ c := by
  simp only [cleanComp, Bool.and_eq_true, Bool.not_eq_true', beq_eq_false_iff_ne,
    ne_eq, decide_eq_false_iff_not] at h
  exact ⟨h.1.1.1, h.1.1.2, h.1.2, h.2⟩

theorem foldl_normStep_clean (ab : Bool) (comps : List Chars) (acc : List Chars)
    (h : ∀ c ∈ comps, cleanComp c = true) :
    comps.foldl (normStep ab) acc = comps.reverse ++ acc := by
  induction comps generalizing acc with
  | nil => rfl
  | cons x rest ih =>
    obtain ⟨hx1, hx2, hx3, _⟩ := cleanComp_spec x (h x (by simp))
    have hstep : normStep ab acc x = x :: acc := by
      unfold normStep
      rw [if_neg (by simp [hx1, hx2]), if_neg hx3]
    rw [List.foldl_cons, hstep,
      ih (x :: acc) (fun c hc => h c (List.mem_cons_of_mem x hc))]
    simp

theorem clean_head_ne_slash (l : Chars)
    (h : ∀ c ∈ chSplit '/' l, cleanComp c = true) : ¬ l.head? = some '/' := by
  cases l with
  | nil => simp
  | cons c cs =>
    intro hc
    simp only [List.head?_cons, Option.some.injEq] at hc
    subst hc
    have h0 : ([] : Chars) ∈ chSplit '/' ('/' :: cs) := by
      simp [chSplit]
    have := h [] h0
    simp [cleanComp] at this

theorem normalizeL_of_clean (l : Chars) (hl : l ≠ [])
    (h : ∀ c ∈ chSplit '/' l, cleanComp c = true) : normalizeL l = l := by
  have hAbs : ¬ l.head? = some '/' := clean_head_ne_slash l h
  have hfold := foldl_normStep_clean (decide (l.head? = some '/')) (chSplit '/' l) [] h
  rw [normalizeL]
  simp only [hfold, List.append_nil, List.reverse_reverse, interC_chSplit]
  rw [if_neg hAbs, if_neg hl]

theorem normalRelPath_data_ne_nil (p : String) (h : normalRelPath p = true) :
    p.data ≠ [] := by
  intro hnil
  rw [normalRelPath, List.all_eq_true] at h
  have h0 : ([] : Chars) ∈ pathComps p := by
    simp [pathComps, hnil, chSplit]
  have := h [] h0
  simp [cleanComp] at this

theorem normalRelPath_single (c : Chars) (h : cleanComp c = true) :
    normalRelPath ⟨c⟩ = true := by
  obtain ⟨h1, h2, h3, h4⟩ := cleanComp_spec c h
  rw [normalRelPath, pathComps]
  show (chSplit '/' c).all cleanComp = true
  rw [chSplit_no_sep '/' c h4]
  simp [h]

/-- Joining a clean component onto the empty prefix yields that component. -/
theorem pjoin_empty_clean (x : String) (h : cleanComp x.data = true) :
    pjoin ["", x] = x := by
  obtain ⟨h1, _, _, h4⟩ := cleanComp_spec x.data h
  have hcomps : chSplit '/' x.data = [x.data] := chSplit_no_sep '/' x.data h4
  rw [pjoin]
  show (⟨normalizeL (interC '/' (([[], x.data].filter (fun c => c ≠ []))))⟩ : String) = x
  rw [show ([[], x.data].filter (fun c => c ≠ [])) = [x.data] by simp [List.filter, h1]]
  rw [show interC '/' [x.data] = x.data from rfl]
  rw [normalizeL_of_clean x.data h1 (by rw [hcomps]; simpa using h)]

/-- Joining a clean component onto a normalized relative path appends it
literally. -/
theorem pjoin_clean_append (p x : String) (hp : normalRelPath p = true)
    (hx : cleanComp x.data = true) : pjoin [p, x] = p ++ "/" ++ x := by
  obtain ⟨hx1, _, _, hx4⟩ := cleanComp_spec x.data hx
  have hpne := normalRelPath_data_ne_nil p hp
  have hraw : interC '/' (([p.data, x.data].filter (fun c => c ≠ []))) =
      p.data ++ '/' :: x.data := by
    rw [show ([p.data, x.data].filter (fun c => c ≠ [])) = [p.data, x.data] by
      simp [List.filter, hpne, hx1]]
    rfl
  have hsplit : chSplit '/' (p.data ++ '/' :: x.data) =
      chSplit '/' p.data ++ [x.data] := by
    rw [chSplit_append, chSplit_no_sep '/' x.data hx4]
  have hclean : ∀ c ∈ chSplit '/' (p.data ++ '/' :: x.data), cleanComp c = true := by
    intro c hc
    rw [hsplit] at hc
    rcases List.mem_append.mp hc with hc | hc
    · exact (List.all_eq_true.mp hp) c hc
    · simp only [List.mem_singleton] at hc
      exact hc ▸ hx
  rw [pjoin]
  show (⟨normalizeL (interC '/' (([p.data, x.data].filter (fun c => c ≠ []))))⟩ : String) =
    p ++ "/" ++ x
  rw [hraw, normalizeL_of_clean _ (by simp) hclean]
  apply congrArg String.mk
  show p.data ++ '/' :: x.data = ((p ++ "/") ++ x).data
  rw [String.data_append, String.data_append, List.append_assoc]
  rfl

/-- A normalized relative path extended by a clean component stays normalized. -/
theorem normalRelPath_append (p x : String) (hp : normalRelPath p = true)
    (hx : cleanComp x.data = true) : normalRelPath (p ++ "/" ++ x) = true := by
  obtain ⟨hx1, _, _, hx4⟩ := cleanComp_spec x.data hx
  rw [normalRelPath, pathComps]
  have hdata : ((p ++ "/") ++ x).data = p.data ++ '/' :: x.data := by
    rw [String.data_append, String.data_append, List.append_assoc]
    rfl
  rw [hdata, chSplit_append, chSplit_no_sep '/' x.data hx4]
  rw [List.all_append]
  have hp' : (chSplit '/' p.data).all cleanComp = true := hp
  simp [hp', hx]

/-! ## Record (JS object) lookup lemmas -/

theorem lookup_map_key {α : Type} (key : α → String) (l : List α) (k : String) :
    ((l.map (fun c => (key c, c))).lookup k) = l.find? (fun c => key c == k) := by
  induction l with
  | nil => rfl
  | cons a rest ih =>
    simp only [List.map_cons, List.lookup, List.find?]
    by_cases h : k = key a
    · simp [h]
    · have h1 : (k == key a) = false := beq_eq_false_iff_ne.mpr h
      have h2 : (key a == k) = false := beq_eq_false_iff_ne.mpr (Ne.symm h)
      simp [h1, h2, ih]

theorem rget_map_key {α : Type} (key : α → String) (l : List α) (k : String) :
    rget (l.map (fun c => (key c, c))) k = l.reverse.find? (fun c => key c == k) := by
  rw [rget]
  have hrev : (l.map (fun c => (key c, c))).reverse = l.reverse.map (fun c => (key c, c)) := by
    simp
  rw [hrev, lookup_map_key]

theorem lookup_append {α : Type} (l1 l2 : List (String × α)) (k : String) :
    (l1 ++ l2).lookup k = ((l1.lookup k).or (l2.lookup k)) := by
  induction l1 with
  | nil => simp [List.lookup, Option.or]
  | cons a rest ih =>
    obtain ⟨ka, va⟩ := a
    simp only [List.cons_append, List.lookup]
    by_cases h : k = ka
    · simp [h, Option.or]
    · simp [beq_eq_false_iff_ne.mpr h, ih]

theorem rget_append {α : Type} (l1 l2 : List (String × α)) (k : String) :
    rget (l1 ++ l2) k = ((rget l2 k).or (rget l1 k)) := by
  rw [rget, rget, rget, List.reverse_append, lookup_append]

theorem findSome?_append {α β : Type} (f : α → Option β) (l1 l2 : List α) :
    (l1 ++ l2).findSome? f = ((l1.findSome? f).or (l2.findSome? f)) := by
  induction l1 with
  | nil => simp [Option.or]
  | cons a l ih =>
    simp only [List.cons_append, List.findSome?]
    cases f a <;> simp [Option.or, ih]

theorem rget_flatMap {α β : Type} (g : α → List (String × β)) (L : List α) (k : String) :
    rget (L.flatMap g) k = L.reverse.findSome? (fun x => rget (g x) k) := by
  induction L with
  | nil => rfl
  | cons a L ih =>
    rw [List.flatMap_cons, List.reverse_cons, rget_append, ih, findSome?_append]
    simp only [List.findSome?]
    cases rget (g a) k <;> simp

theorem foldl_append_start {α β : Type} (g : α → List β) (L : List α) (acc : List β) :
    L.foldl (fun acc x => acc ++ g x) acc = acc ++ L.flatMap g := by
  induction L generalizing acc with
  | nil => simp
  | cons a L ih => simp [ih, List.flatMap_cons, List.append_assoc]

/-! ## Claims C3, C4, C5, C6 -/

/-- C3: `getIndexes` of a file is the one-element sequence holding that file;
of a folder it is exactly its direct children that are index files — files
whose basename's token before the first `.` equals `index` — in child order,
never a folder child; on a folder with `index.ts`, `index.client.ts` and
`helper.ts` it yields exactly the two index files. -/
theorem C3_getIndexes_spec :
    (∀ p : String, getIndexes (.file p) = [.file p]) ∧
    (∀ (p : String) (cs : List FSNode),
      getIndexes (.folder p cs) = cs.filter isIndex ∧
      (∀ n, n ∈ getIndexes (.folder p cs) ↔ (n ∈ cs ∧ isIndex n = true)) ∧
      (∀ n, n ∈ getIndexes (.folder p cs) → n.isFile = true)) ∧
    (∀ q : String, isIndex (.file q) =
      ((baseL q).takeWhile (fun c => c ≠ '.') == "index".data)) ∧
    (getIndexes (.folder "shared/ui"
      [.file "shared/ui/index.ts", .file "shared/ui/index.client.ts",
       .file "shared/ui/helper.ts"]) =
      [.file "shared/ui/index.ts", .file "shared/ui/index.client.ts"]) := by
  refine ⟨fun p => rfl, fun p cs => ⟨rfl, fun n => List.mem_filter, fun n hn => ?_⟩,
    fun q => ?_, by decide⟩
  · have h := (List.mem_filter.mp hn).2
    cases n with
    | file q => rfl
    | folder q ds => simp [isIndex] at h
  · show ((chSplit '.' (parseNameL (baseL q))).headD [] == "index".data) = _
    rw [chSplit_headD, takeWhile_parseNameL]

/-- C3 witness: the characterization applied to a concrete folder. -/
theorem C3_getIndexes_witness :
    FSNode.isFile (FSNode.file "shared/ui/index.ts") = true :=
  (C3_getIndexes_spec.2.1 "shared/ui" [.file "shared/ui/index.ts"]).2.2 _ (by decide)

/-- C4: `getSegments` maps exactly the non-index direct children, each keyed
by its extension-stripped basename, and lookup resolves a key collision to the
latest child with that key (last write wins). -/
theorem C4_getSegments_spec (f : FSNode) :
    (∀ (k : String) (c : FSNode), ((k, c) ∈ getSegments f ↔
      (c ∈ f.children ∧ isIndex c = false ∧ k = parseName c.path))) ∧
    (∀ k : String, rget (getSegments f) k =
      ((f.children.filter (fun c => !isIndex c)).reverse.find?
        (fun c => parseName c.path == k))) := by
  constructor
  · intro k c
    constructor
    · intro h
      obtain ⟨a, ha, hga⟩ := List.mem_map.mp h
      obtain ⟨ha1, ha2⟩ := List.mem_filter.mp ha
      cases hga
      exact ⟨ha1, by simpa using ha2, rfl⟩
    · rintro ⟨hc, hni, rfl⟩
      exact List.mem_map.mpr ⟨c, List.mem_filter.mpr ⟨hc, by simp [hni]⟩, rfl⟩
  · intro k
    exact rget_map_key (fun c => parseName c.path)
      (f.children.filter (fun c => !isIndex c)) k

/-- C4 witness: a concrete collision where the later child overwrites. -/
theorem C4_getSegments_witness :
    rget (getSegments (.folder "src/shared"
      [.file "src/shared/ui.ts", .folder "src/shared/ui" [],
       .file "src/shared/index.ts"])) "ui" = some (.folder "src/shared/ui" []) :=
  ((C4_getSegments_spec (.folder "src/shared"
      [.file "src/shared/ui.ts", .folder "src/shared/ui" [],
       .file "src/shared/index.ts"])).2 "ui").trans (by decide)

/-- C5 counterexample: a file lying at exactly
`<layerPath>/<inSlice>/@x/<forSlice>.<ext>` with `layerPath = "./src/entities"`
(the example from the source's own doc comment) has the required
extension-stripped basename and the literal directory `layerPath/inSlice/@x`,
yet `isCrossImportPublicApi` returns `false`: `join` normalizes `./` away
while `parse(..).dir` keeps the path verbatim. -/
theorem C5_crossImport_counterexample :
    (FSNode.file "./src/entities/user/@x/product.ts").path =
      "./src/entities" ++ "/" ++ "user" ++ "/" ++ "@x" ++ "/" ++ "product" ++ ".ts" ∧
    parseName (FSNode.file "./src/entities/user/@x/product.ts").path = "product" ∧
    parseDir (FSNode.file "./src/entities/user/@x/product.ts").path =
      "./src/entities" ++ "/" ++ "user" ++ "/" ++ "@x" ∧
    isCrossImportPublicApi (.file "./src/entities/user/@x/product.ts")
      ⟨"user", "product", "./src/entities"⟩ = false := by
  decide

theorem pjoin_clean_append2 (p x y : String) (hp : normalRelPath p = true)
    (hx : cleanComp x.data = true) (hy : cleanComp y.data = true) :
    pjoin [p, x, y] = p ++ "/" ++ x ++ "/" ++ y := by
  obtain ⟨hx1, _, _, hx4⟩ := cleanComp_spec x.data hx
  obtain ⟨hy1, _, _, hy4⟩ := cleanComp_spec y.data hy
  have hpne := normalRelPath_data_ne_nil p hp
  have hraw : interC '/' (([p.data, x.data, y.data].filter (fun c => c ≠ []))) =
      p.data ++ '/' :: (x.data ++ '/' :: y.data) := by
    rw [show ([p.data, x.data, y.data].filter (fun c => c ≠ [])) =
      [p.data, x.data, y.data] by simp [List.filter, hpne, hx1, hy1]]
    rfl
  have hsplit : chSplit '/' (p.data ++ '/' :: (x.data ++ '/' :: y.data)) =
      chSplit '/' p.data ++ ([x.data] ++ [y.data]) := by
    rw [chSplit_append, chSplit_append, chSplit_no_sep '/' x.data hx4,
      chSplit_no_sep '/' y.data hy4]
  have hclean : ∀ c ∈ chSplit '/' (p.data ++ '/' :: (x.data ++ '/' :: y.data)),
      cleanComp c = true := by
    intro c hc
    rw [hsplit] at hc
    rcases List.mem_append.mp hc with hc | hc
    · exact (List.all_eq_true.mp hp) c hc
    · rcases List.mem_append.mp hc with hc | hc <;> simp only [List.mem_singleton] at hc
      · exact hc ▸ hx
      · exact hc ▸ hy
  rw [pjoin]
  show (⟨normalizeL (interC '/'
    (([p.data, x.data, y.data].filter (fun c => c ≠ []))))⟩ : String) =
    p ++ "/" ++ x ++ "/" ++ y
  rw [hraw, normalizeL_of_clean _ (by simp) hclean]
  apply congrArg String.mk
  show p.data ++ '/' :: (x.data ++ '/' :: y.data) = (((p ++ "/") ++ x ++ "/") ++ y).data
  rw [String.data_append, String.data_append, String.data_append, String.data_append]
  rw [List.append_assoc, List.append_assoc, List.append_assoc]
  rfl

/-- C5 amended: `isCrossImportPublicApi` is true iff the file's
extension-stripped basename equals `forSlice` and its parsed directory equals
the normalized `join(layerPath, inSlice, "@x")`; whenever `layerPath` is a
normalized relative path and `inSlice` a clean component, that join is the
literal `layerPath/inSlice/@x`, recovering the claim. -/
theorem C5_crossImport_amended (f : FSNode) (ctx : CrossImportContext) :
    (isCrossImportPublicApi f ctx = true ↔
      (parseName f.path = ctx.forSlice ∧
        parseDir f.path = pjoin [ctx.layerPath, ctx.inSlice, "@x"])) ∧
    (normalRelPath ctx.layerPath = true → cleanComp ctx.inSlice.data = true →
      pjoin [ctx.layerPath, ctx.inSlice, "@x"] =
        ctx.layerPath ++ "/" ++ ctx.inSlice ++ "/" ++ "@x") := by
  constructor
  · simp [isCrossImportPublicApi, Bool.and_eq_true]
  · intro hp hs
    exact pjoin_clean_append2 ctx.layerPath ctx.inSlice "@x" hp hs (by decide)

/-- C5 witness: the amended characterization at a normalized layer path. -/
theorem C5_crossImport_witness :
    isCrossImportPublicApi (.file "src/entities/user/@x/product.ts")
      ⟨"user", "product", "src/entities"⟩ = true ∧
    pjoin ["src/entities", "user", "@x"] =
      "src/entities" ++ "/" ++ "user" ++ "/" ++ "@x" :=
  ⟨((C5_crossImport_amended (.file "src/entities/user/@x/product.ts")
      ⟨"user", "product", "src/entities"⟩).1).mpr (by decide),
   (C5_crossImport_amended (.file "src/entities/user/@x/product.ts")
      ⟨"user", "product", "src/entities"⟩).2 (by decide) (by decide)⟩

/-- C6: `getLayers` contains exactly the direct folder children of the root
whose basename is one of the six layer names, keyed by that basename; a file
child carrying a layer name is never included. -/
theorem C6_getLayers_spec (root : FSNode) (k : String) (c : FSNode) :
    (k, c) ∈ getLayers root ↔
      (c ∈ root.children ∧ c.isFolder = true ∧
        basename c.path ∈ layerSequence ∧ k = basename c.path) := by
  constructor
  · intro h
    obtain ⟨a, ha, hga⟩ := List.mem_map.mp h
    obtain ⟨ha1, ha2⟩ := List.mem_filter.mp ha
    rw [Bool.and_eq_true] at ha2
    cases hga
    exact ⟨ha1, ha2.1, by simpa using ha2.2, rfl⟩
  · rintro ⟨hc, hf, hb, rfl⟩
    exact List.mem_map.mpr ⟨c, List.mem_filter.mpr ⟨hc, by simp [hf, hb]⟩, rfl⟩

/-- C6 witness: a folder layer is recognized while a file with a layer name
is rejected. -/
theorem C6_getLayers_witness :
    ("pages", FSNode.folder "src/pages" []) ∈
      getLayers (.folder "src" [.folder "src/pages" [], .file "src/app"]) ∧
    ¬ ("app", FSNode.file "src/app") ∈
      getLayers (.folder "src" [.folder "src/pages" [], .file "src/app"]) :=
  ⟨(C6_getLayers_spec (.folder "src" [.folder "src/pages" [], .file "src/app"])
      "pages" (.folder "src/pages" [])).mpr (by decide),
   fun h => by
    have := (C6_getLayers_spec (.folder "src" [.folder "src/pages" [], .file "src/app"])
      "app" (.file "src/app")).mp h
    simp [FSNode.isFolder] at this⟩

/-! ## Claim C8 -/

/-- C8: the classifier operations are total Lean functions over every tree
(totality is by construction of the definitions), and absence of any match
yields an empty mapping/sequence or `false` rather than an error: an empty
folder produces empty results and `false` everywhere, a folder is never an
index, and when no child matches the relevant predicate the result is
empty or `false`. -/
theorem C8_totality_spec :
    (∀ (p : String) (extras : List String),
      getLayers (.folder p []) = [] ∧
      getSlices (.folder p []) extras = [] ∧
      getAllSlices (.folder p []) extras = [] ∧
      getSegments (.folder p []) = [] ∧
      getAllSegments (.folder p []) = [] ∧
      getIndexes (.folder p []) = [] ∧
      isSlice (.folder p []) extras = false) ∧
    (∀ (p : String) (cs : List FSNode), isIndex (.folder p cs) = false) ∧
    (∀ root : FSNode, (∀ c ∈ root.children, c.isFolder = false) →
      getLayers root = []) ∧
    (∀ (p : String) (cs : List FSNode) (extras : List String),
      (∀ c ∈ cs, ¬ parseName c.path ∈ (conventionalSegmentNames ++ extras)) →
      isSlice (.folder p cs) extras = false) ∧
    (∀ (p : String) (cs : List FSNode),
      (∀ c ∈ cs, isIndex c = false) → getIndexes (.folder p cs) = []) := by
  refine ⟨fun p extras => ⟨rfl, rfl, rfl, rfl, rfl, rfl, rfl⟩,
    fun p cs => rfl, fun root h => ?_, fun p cs extras h => ?_, fun p cs h => ?_⟩
  · have hnil : root.children.filter
        (fun child => child.isFolder && layerSequence.contains (basename child.path)) = [] := by
      rw [List.filter_eq_nil_iff]
      intro a ha
      simp [h a ha]
    rw [getLayers, hnil]
    rfl
  · show List.any cs _ = false
    rw [List.any_eq_false]
    intro a ha
    simpa using h a ha
  · show cs.filter isIndex = []
    rw [List.filter_eq_nil_iff]
    intro a ha
    simp [h a ha]

/-- C8 witness: the absence behaviors at a concrete tree. -/
theorem C8_totality_witness :
    getLayers (.folder "src" [.file "src/shared"]) = [] ∧
    isSlice (.folder "src/pages/home" [.file "src/pages/home/readme.md"]) [] = false ∧
    getIndexes (.folder "src/shared/ui" [.file "src/shared/ui/helper.ts"]) = [] :=
  ⟨C8_totality_spec.2.2.1 _ (by decide),
   C8_totality_spec.2.2.2.1 _ _ [] (by decide),
   C8_totality_spec.2.2.2.2 _ _ (by decide)⟩

/-! ## Claim C9 -/

/-- C9: with `baseUrl "."` and the wildcard mapping `~/* -> ./src/*`, and an
existence probe true exactly at `src/shared/ui/index.ts`, resolving
`~/shared/ui` from `src/pages/home/ui/HomePage.tsx` rewrites the specifier to
`./src/shared/ui` and the directory fallback finds `/index` plus the first
recognized extension, returning `src/shared/ui/index.ts`. -/
theorem C9_resolveImport_roundtrip :
    resolveImport "~/shared/ui" "src/pages/home/ui/HomePage.tsx"
      ⟨".", [("~/*", ["./src/*"])]⟩
      (fun p => p == "src/shared/ui/index.ts") = some "src/shared/ui/index.ts" := by
  decide

/-! ## Claim C2 -/

theorem mem_traverseChildren_of_mem (extras : List String) (pfx : String)
    (cs : List FSNode) (c : FSNode) (hc : c ∈ cs) (e : String × FSNode)
    (he : e ∈ traverseNode extras pfx c) : e ∈ traverseChildren extras pfx cs := by
  induction cs with
  | nil => cases hc
  | cons a rest ih =>
    simp only [traverseChildren]
    rcases List.mem_cons.mp hc with rfl | hmem
    · exact List.mem_append.mpr (Or.inl he)
    · exact List.mem_append.mpr (Or.inr (ih hmem))

/-- C2: when a direct child folder of a sliced layer is not itself a slice
but one of its own child folders is, `getSlices` reports that grandchild
folder under the key `parent/child` formed by joining the two folder names
with the path separator (folder basenames being clean path components). -/
theorem C2_nested_slice (layer : FSNode) (extras : List String)
    (pp : String) (pcs : List FSNode) (g : FSNode)
    (hparent : FSNode.folder pp pcs ∈ layer.children)
    (hnot : isSlice (.folder pp pcs) extras = false)
    (hg : g ∈ pcs) (hgf : g.isFolder = true)
    (hgs : isSlice g extras = true)
    (hbp : cleanComp (baseL pp) = true)
    (hbg : cleanComp (baseL g.path) = true) :
    (basename pp ++ "/" ++ basename g.path, g) ∈ getSlices layer extras := by
  obtain ⟨gp, gcs, rfl⟩ : ∃ gp gcs, g = .folder gp gcs := by
    cases g with
    | file q => simp [FSNode.isFolder] at hgf
    | folder gp gcs => exact ⟨gp, gcs, rfl⟩
  apply mem_traverseChildren_of_mem extras "" layer.children _ hparent
  simp only [traverseNode]
  rw [if_neg (by simp [hnot])]
  have hpfx : pjoin ["", basename pp] = basename pp := pjoin_empty_clean (basename pp) hbp
  rw [hpfx]
  apply mem_traverseChildren_of_mem extras (basename pp) pcs _ hg
  simp only [traverseNode]
  rw [if_pos hgs]
  have hkey : pjoin [basename pp, basename gp] = basename pp ++ "/" ++ basename gp :=
    pjoin_clean_append (basename pp) (basename gp) (normalRelPath_single (baseL pp) hbp) hbg
  show _ ∈ [(pjoin [basename pp, basename (FSNode.folder gp gcs).path], FSNode.folder gp gcs)]
  simp only [FSNode.path] at hkey ⊢
  rw [hkey]
  exact List.mem_singleton.mpr rfl

/-- C2 witness: the nested-slice scenario from the specification. -/
theorem C2_nested_slice_witness :
    ("home" ++ "/" ++ "profile",
      FSNode.folder "src/pages/home/profile" [.folder "src/pages/home/profile/ui" []]) ∈
      getSlices (.folder "src/pages"
        [.folder "src/pages/home"
          [.folder "src/pages/home/profile" [.folder "src/pages/home/profile/ui" []]]]) [] := by
  have h := C2_nested_slice
    (.folder "src/pages"
      [.folder "src/pages/home"
        [.folder "src/pages/home/profile" [.folder "src/pages/home/profile/ui" []]]])
    [] "src/pages/home"
    [.folder "src/pages/home/profile" [.folder "src/pages/home/profile/ui" []]]
    (.folder "src/pages/home/profile" [.folder "src/pages/home/profile/ui" []])
    (by decide) (by decide) (by decide) (by decide) (by decide) (by decide) (by decide)
  simpa using h

/-! ## Claim C1 -/

mutual
/-- Ghost of `traverseNode` that additionally records the child-index position
(relative to the layer) of every recorded slice folder. -/
def ghostNode (extras : List String) (pos : List Nat) (pfx : String) :
    FSNode → List (List Nat × String × FSNode)
  | .file _ => []
  | .folder p cs =>
    if isSlice (.folder p cs) extras then
      [(pos, pjoin [pfx, basename p], .folder p cs)]
    else ghostChildren extras pos (pjoin [pfx, basename p]) 0 cs

/-- Ghost of `traverseChildren`, tracking the index of each child. -/
def ghostChildren (extras : List String) (pos : List Nat) (pfx : String) (i : Nat) :
    List FSNode → List (List Nat × String × FSNode)
  | [] => []
  | c :: rest =>
    ghostNode extras (pos ++ [i]) pfx c ++ ghostChildren extras pos pfx (i + 1) rest
end

/-- The ghost traversal of a whole layer. -/
def ghostSlices (layer : FSNode) (extras : List String) :
    List (List Nat × String × FSNode) :=
  ghostChildren extras [] "" 0 layer.children

/-- Locate the node at a child-index position. -/
def FSNode.nodeAt : FSNode → List Nat → Option FSNode
  | n, [] => some n
  | .file _, _ :: _ => none
  | .folder _ cs, i :: rest =>
    match cs.get? i with
    | some c => FSNode.nodeAt c rest
    | none => none

mutual
theorem ghostNode_map (extras : List String) (pos : List Nat) (pfx : String) :
    ∀ n : FSNode, (ghostNode extras pos pfx n).map (fun e => (e.2.1, e.2.2)) =
      traverseNode extras pfx n
  | .file _ => rfl
  | .folder p cs => by
    simp only [ghostNode, traverseNode]
    split
    · rfl
    · exact ghostChildren_map extras pos (pjoin [pfx, basename p]) 0 cs

theorem ghostChildren_map (extras : List String) (pos : List Nat) (pfx : String) (i : Nat) :
    ∀ cs : List FSNode, (ghostChildren extras pos pfx i cs).map (fun e => (e.2.1, e.2.2)) =
      traverseChildren extras pfx cs
  | [] => rfl
  | c :: rest => by
    simp only [ghostChildren, traverseChildren, List.map_append]
    rw [ghostNode_map extras (pos ++ [i]) pfx c,
      ghostChildren_map extras pos pfx (i + 1) rest]
end

mutual
theorem ghostNode_sound (extras : List String) (pos : List Nat) (pfx : String) :
    ∀ n : FSNode, ∀ e ∈ ghostNode extras pos pfx n,
      pos <+: e.1 ∧ n.nodeAt (e.1.drop pos.length) = some e.2.2 ∧
        isSlice e.2.2 extras = true
  | .file _ => by
    intro e he
    simp [ghostNode] at he
  | .folder p cs => by
    intro e he
    simp only [ghostNode] at he
    by_cases hs : isSlice (.folder p cs) extras = true
    · rw [if_pos hs] at he
      obtain rfl := List.mem_singleton.mp he
      exact ⟨List.prefix_rfl, by simp [FSNode.nodeAt], hs⟩
    · rw [if_neg hs] at he
      obtain ⟨j, t, c, h1, h2, h3, h4⟩ :=
        ghostChildren_sound extras pos (pjoin [pfx, basename p]) 0 cs e he
      refine ⟨⟨(0 + j) :: t, h1.symm⟩, ?_, h4⟩
      rw [h1, List.drop_left]
      have hred : FSNode.nodeAt (.folder p cs) ((0 + j) :: t) = FSNode.nodeAt c t := by
        have h2' : cs[j]? = some c := by simpa [List.get?_eq_getElem?] using h2
        simp [FSNode.nodeAt, h2']
      rw [hred]
      exact h3

theorem ghostChildren_sound (extras : List String) (pos : List Nat) (pfx : String)
    (i : Nat) :
    ∀ cs : List FSNode, ∀ e ∈ ghostChildren extras pos pfx i cs,
      ∃ j t c, e.1 = pos ++ (i + j) :: t ∧ cs.get? j = some c ∧
        c.nodeAt t = some e.2.2 ∧ isSlice e.2.2 extras = true
  | [] => by
    intro e he
    simp [ghostChildren] at he
  | c0 :: rest => by
    intro e he
    simp only [ghostChildren] at he
    rcases List.mem_append.mp he with he | he
    · obtain ⟨hpre, hnode, hslice⟩ := ghostNode_sound extras (pos ++ [i]) pfx c0 e he
      obtain ⟨u, hu⟩ := hpre
      refine ⟨0, u, c0, ?_, rfl, ?_, hslice⟩
      · rw [← hu, List.append_assoc]
        rfl
      · have hdrop : e.1.drop (pos ++ [i]).length = u := by
          rw [← hu, List.drop_left]
        rw [hdrop] at hnode
        exact hnode
    · obtain ⟨j, t, c, h1, h2, h3, h4⟩ :=
        ghostChildren_sound extras pos pfx (i + 1) rest e he
      refine ⟨j + 1, t, c, ?_, h2, h3, h4⟩
      rw [h1, show i + 1 + j = i + (j + 1) from by omega]
end

mutual
theorem ghostNode_pairwise (extras : List String) (pos : List Nat) (pfx : String) :
    ∀ n : FSNode, (ghostNode extras pos pfx n).Pairwise
      (fun a b => ¬ a.1 <+: b.1 ∧ ¬ b.1 <+: a.1)
  | .file _ => by simp [ghostNode]
  | .folder p cs => by
    simp only [ghostNode]
    split
    · simp
    · exact ghostChildren_pairwise extras pos (pjoin [pfx, basename p]) 0 cs

theorem ghostChildren_pairwise (extras : List String) (pos : List Nat) (pfx : String)
    (i : Nat) :
    ∀ cs : List FSNode, (ghostChildren extras pos pfx i cs).Pairwise
      (fun a b => ¬ a.1 <+: b.1 ∧ ¬ b.1 <+: a.1)
  | [] => by simp [ghostChildren]
  | c0 :: rest => by
    simp only [ghostChildren]
    rw [List.pairwise_append]
    refine ⟨ghostNode_pairwise extras (pos ++ [i]) pfx c0,
      ghostChildren_pairwise extras pos pfx (i + 1) rest, ?_⟩
    intro a ha b hb
    obtain ⟨hpa, _, _⟩ := ghostNode_sound extras (pos ++ [i]) pfx c0 a ha
    obtain ⟨j, t, c, h1, _, _, _⟩ :=
      ghostChildren_sound extras pos pfx (i + 1) rest b hb
    obtain ⟨u, hu⟩ := hpa
    constructor
    · intro hab
      rw [← hu, h1, List.append_assoc] at hab
      have hinj := (List.prefix_append_right_inj pos).mp hab
      have hcons := (List.cons_prefix_cons.mp (by simpa using hinj)).1
      omega
    · intro hba
      rw [← hu, h1, List.append_assoc] at hba
      have hinj := (List.prefix_append_right_inj pos).mp hba
      have hcons := (List.cons_prefix_cons.mp (by simpa using hinj)).1
      omega
end

/-- C1: every folder recorded by `getSlices` satisfies `isSlice` with the same
extras; the ghost traversal with recorded child-index positions projects
exactly onto `getSlices`, every recorded position locates its folder inside
the layer, and recorded positions are pairwise prefix-incomparable — no
recorded folder is an ancestor or a descendant of another recorded folder
along one branch. -/
theorem C1_getSlices_slices (layer : FSNode) (extras : List String) :
    (∀ kf ∈ getSlices layer extras, isSlice kf.2 extras = true) ∧
    ((ghostSlices layer extras).map (fun e => (e.2.1, e.2.2)) =
      getSlices layer extras) ∧
    (∀ e ∈ ghostSlices layer extras,
      layer.nodeAt e.1 = some e.2.2 ∧ isSlice e.2.2 extras = true) ∧
    ((ghostSlices layer extras).Pairwise
      (fun a b => ¬ a.1 <+: b.1 ∧ ¬ b.1 <+: a.1)) := by
  have hmap : (ghostSlices layer extras).map (fun e => (e.2.1, e.2.2)) =
      getSlices layer extras :=
    ghostChildren_map extras [] "" 0 layer.children
  refine ⟨?_, hmap, ?_, ghostChildren_pairwise extras [] "" 0 layer.children⟩
  · intro kf hkf
    rw [← hmap] at hkf
    obtain ⟨e, he, hkfe⟩ := List.mem_map.mp hkf
    obtain ⟨j, t, c, h1, h2, h3, h4⟩ :=
      ghostChildren_sound extras [] "" 0 layer.children e he
    cases hkfe
    exact h4
  · intro e he
    obtain ⟨j, t, c, h1, h2, h3, h4⟩ :=
      ghostChildren_sound extras [] "" 0 layer.children e he
    refine ⟨?_, h4⟩
    cases layer with
    | file q => simp [FSNode.children] at h2
    | folder q cs =>
      have he1 : e.1 = j :: t := by simpa using h1
      rw [he1]
      have hred : FSNode.nodeAt (.folder q cs) (j :: t) = FSNode.nodeAt c t := by
        simp only [FSNode.children] at h2
        have h2' : cs[j]? = some c := by simpa [List.get?_eq_getElem?] using h2
        simp [FSNode.nodeAt, h2']
      rw [hred]
      exact h3

/-- C1 witness: a recorded slice of a concrete layer satisfies `isSlice`. -/
theorem C1_getSlices_witness :
    isSlice (.folder "src/pages/home" [.folder "src/pages/home/ui" []]) [] = true :=
  (C1_getSlices_slices
    (.folder "src/pages" [.folder "src/pages/home" [.folder "src/pages/home/ui" []]])
    []).1
    ("home", .folder "src/pages/home" [.folder "src/pages/home/ui" []]) (by decide)

/-! ## Claim C7 -/

/-- C7: `getAllSlices` is the union of `getSlices` over exactly the sliced
layers of `getLayers`, each entry tagged with the owning layer's basename,
and lookup of a slice name resolves to the entry contributed by the last
layer iterated (later layers overwrite earlier ones). -/
theorem C7_getAllSlices_spec (root : FSNode) (extras : List String) :
    (getAllSlices root extras =
      (((getLayers root).map Prod.snd).filter
        (fun layer => isSliced layer.path)).flatMap
        (fun layer => (getSlices layer extras).map
          (fun kf => (kf.1, (kf.2, basename layer.path))))) ∧
    (∀ (k : String) (v : FSNode × String), ((k, v) ∈ getAllSlices root extras ↔
      ∃ layer, layer ∈ (getLayers root).map Prod.snd ∧ isSliced layer.path = true ∧
        (k, v.1) ∈ getSlices layer extras ∧ v.2 = basename layer.path)) ∧
    (∀ k : String, rget (getAllSlices root extras) k =
      (((getLayers root).map Prod.snd).filter
        (fun layer => isSliced layer.path)).reverse.findSome?
        (fun layer => rget ((getSlices layer extras).map
          (fun kf => (kf.1, (kf.2, basename layer.path)))) k)) := by
  have hflat : getAllSlices root extras =
      (((getLayers root).map Prod.snd).filter
        (fun layer => isSliced layer.path)).flatMap
        (fun layer => (getSlices layer extras).map
          (fun kf => (kf.1, (kf.2, basename layer.path)))) := by
    rw [getAllSlices, foldl_append_start, List.nil_append]
  refine ⟨hflat, ?_, ?_⟩
  · intro k v
    rw [hflat]
    constructor
    · intro h
      obtain ⟨layer, hl, hm⟩ := List.mem_flatMap.mp h
      obtain ⟨hl1, hl2⟩ := List.mem_filter.mp hl
      obtain ⟨kf, hkf, hkfe⟩ := List.mem_map.mp hm
      obtain ⟨k1, f1⟩ := kf
      cases hkfe
      exact ⟨layer, hl1, hl2, hkf, rfl⟩
    · rintro ⟨layer, hl1, hl2, hks, hv2⟩
      apply List.mem_flatMap.mpr
      refine ⟨layer, List.mem_filter.mpr ⟨hl1, hl2⟩, ?_⟩
      apply List.mem_map.mpr
      refine ⟨(k, v.1), hks, ?_⟩
      obtain ⟨v1, v2⟩ := v
      simp only at hv2
      rw [hv2]
  · intro k
    rw [hflat, rget_flatMap]

/-- C7 witness: a colliding slice name across two layers resolves to the
later layer's slice, tagged with that layer's name. -/
theorem C7_getAllSlices_witness :
    rget (getAllSlices (.folder "src"
      [.folder "src/entities" [.folder "src/entities/user" [.folder "src/entities/user/ui" []]],
       .folder "src/features" [.folder "src/features/user" [.folder "src/features/user/api" []]]])
      []) "user" =
      some (.folder "src/features/user" [.folder "src/features/user/api" []], "features") :=
  ((C7_getAllSlices_spec (.folder "src"
      [.folder "src/entities" [.folder "src/entities/user" [.folder "src/entities/user/ui" []]],
       .folder "src/features" [.folder "src/features/user" [.folder "src/features/user/api" []]]])
      []).2.2 "user").trans (by decide)

/-! ## Claim C10 -/

/-- C10 counterexample: with the extra segment name `.env`, the earlier
`isSlice` strips the dotfile basename to the empty string while the later
`parse`-based one keeps `.env`, so the two `getSlices` implementations
disagree on the same layer and extras. -/
theorem C10_versions_counterexample :
    V1.getSlices (.folder "src/features"
      [.folder "src/features/a" [.folder "src/features/a/.env" []]]) [".env"] ≠
    getSlices (.folder "src/features"
      [.folder "src/features/a" [.folder "src/features/a/.env" []]]) [".env"] := by
  decide

theorem contains_false_of_head_dot (names : List String)
    (hnames : ∀ s ∈ names, s.data ≠ [] ∧ s.data.head? ≠ some '.')
    (x : Chars) (hx : x = [] ∨ x.head? = some '.') :
    names.contains (⟨x⟩ : String) = false := by
  by_contra h
  rw [Bool.not_eq_false] at h
  have hmem : (⟨x⟩ : String) ∈ names := by simpa using h
  obtain ⟨h1, h2⟩ := hnames _ hmem
  rcases hx with rfl | hx
  · exact h1 rfl
  · exact h2 hx

theorem nameAgree (names : List String)
    (hnames : ∀ s ∈ names, s.data ≠ [] ∧ s.data.head? ≠ some '.') (b : Chars) :
    names.contains (⟨V1.withoutExtensionL b⟩ : String) =
      names.contains (⟨parseNameL b⟩ : String) := by
  by_cases hb : b = ['.', '.']
  · subst hb
    rw [contains_false_of_head_dot names hnames _ (Or.inr (by decide)),
      contains_false_of_head_dot names hnames (parseNameL ['.', '.'])
        (Or.inr (by decide))]
  · simp only [parseNameL, V1.withoutExtensionL, if_neg hb]
    cases h : lastDotIdx b with
    | none => simp [h]
    | some i =>
      cases i with
      | zero =>
        simp only [h]
        rw [contains_false_of_head_dot names hnames (b.take 0) (Or.inl (by simp)),
          contains_false_of_head_dot names hnames b
            (Or.inr (lastDotIdx_zero_head b h))]
      | succ j => simp [h]

theorem isSlice_agree (extras : List String)
    (hex : ∀ s ∈ extras, s.data ≠ [] ∧ s.data.head? ≠ some '.') (f : FSNode) :
    V1.isSlice f extras = isSlice f extras := by
  have hnames : ∀ s ∈ conventionalSegmentNames ++ extras,
      s.data ≠ [] ∧ s.data.head? ≠ some '.' := by
    intro s hs
    rcases List.mem_append.mp hs with hs | hs
    · fin_cases hs <;> exact ⟨by decide, by decide⟩
    · exact hex s hs
  have hfun : (fun child : FSNode => (conventionalSegmentNames ++ extras).contains
        (V1.withoutExtension (basename child.path))) =
      (fun child : FSNode => (conventionalSegmentNames ++ extras).contains
        (parseName child.path)) := by
    funext child
    exact nameAgree (conventionalSegmentNames ++ extras) hnames (baseL child.path)
  show f.children.any _ = f.children.any _
  rw [hfun]

mutual
theorem traverseNode_agree (extras : List String)
    (hex : ∀ s ∈ extras, s.data ≠ [] ∧ s.data.head? ≠ some '.') (pfx : String) :
    ∀ n : FSNode, V1.traverseNode extras pfx n = traverseNode extras pfx n
  | .file _ => rfl
  | .folder p cs => by
    simp only [V1.traverseNode, traverseNode]
    rw [isSlice_agree extras hex (.folder p cs)]
    split
    · rfl
    · exact traverseChildren_agree extras hex (pjoin [pfx, basename p]) cs

theorem traverseChildren_agree (extras : List String)
    (hex : ∀ s ∈ extras, s.data ≠ [] ∧ s.data.head? ≠ some '.') (pfx : String) :
    ∀ cs : List FSNode, V1.traverseChildren extras pfx cs = traverseChildren extras pfx cs
  | [] => rfl
  | c :: rest => by
    simp only [V1.traverseChildren, traverseChildren]
    rw [traverseNode_agree extras hex pfx c,
      traverseChildren_agree extras hex pfx rest]
end

/-- C10 amended: the earlier and the later `getSlices` return identical
mappings for every sliced layer and every list of additional segment names in
which no name is empty or begins with a dot; dotfile-like extra names are the
only source of disagreement (see the counterexample with `.env`). -/
theorem C10_versions_agree (layer : FSNode) (extras : List String)
    (hex : ∀ s ∈ extras, s.data ≠ [] ∧ s.data.head? ≠ some '.') :
    V1.getSlices layer extras = getSlices layer extras :=
  traverseChildren_agree extras hex "" layer.children

/-- C10 witness: agreement at a concrete layer with a benign extra name. -/
theorem C10_versions_witness :
    V1.getSlices (.folder "src/features"
      [.folder "src/features/a" [.folder "src/features/a/.env" []]]) ["custom"] =
    getSlices (.folder "src/features"
      [.folder "src/features/a" [.folder "src/features/a/.env" []]]) ["custom"] :=
  C10_versions_agree
    (.folder "src/features" [.folder "src/features/a" [.folder "src/features/a/.env" []]])
    ["custom"]
    (by
      intro s hs
      simp only [List.mem_singleton] at hs
      subst hs
      exact ⟨by decide, by decide⟩)
